import Mathlib

/-!
# Verification of the ottiaq rank-uniformity scraper

Shallow embedding of the program in `src/ottiaq.ipynb`.  The notebook
repeatedly queries a search endpoint, parses the returned member ids with a
regular expression, stores per-identifier rank-occurrence counters in an
sqlite table, and finally runs Pearson's chi-square test per rank column.

Modelling conventions:
* The network is external: `scrape` is modelled on the fetched payload
  (the `response.text` value); `requests.post` itself is outside the model.
* The sqlite table `fren` (`id INTEGER PRIMARY KEY NOT NULL,
  rank0 INTEGER DEFAULT 0, ..., rank{K-1} INTEGER DEFAULT 0`) is modelled
  as a list of `(id, counters)` rows together with the column count `K`;
  row order is sqlite insertion order.
* Failing sqlite / Python operations are modelled with `Except`:
  `SELECT rank{r} ...` with `r ≥ K` raises `sqlite3.OperationalError`
  (no such column), and `c.fetchone()[0]` on an id with no row raises
  `TypeError` (`fetchone` returned `None`).
* The Python sqlite3 connection runs `update_ranks` inside one implicit
  transaction committed by the final `conn.commit()`.  An exception thrown
  mid-loop propagates (nothing in the notebook catches it), the commit is
  never reached, and the uncommitted updates are rolled back when the
  aborted run's connection closes.  `recordRound` is the resulting durable
  state: the fully committed table on success, the unchanged table on error.
-/

namespace Ottiaq

/-! ## Fetcher: `pattern = re.compile("(?<=Membership number : )\\d+")`,
`scrape` posts and returns `list(map(int, pattern.findall(html)))`. -/

/-- The fixed-width lookbehind text of the regex. -/
def marker : List Char := "Membership number : ".toList

/-- `int` applied to a digit string. -/
def parseNat (s : List Char) : Nat :=
  s.foldl (fun acc c => acc * 10 + (c.toNat - 48)) 0

/-- One step of `pattern.findall`: scan the payload left to right.
`pre` is the reversed list of characters already consumed (so the
lookbehind test is a prefix test on `pre`); `cur = some ds` means we are
inside a match whose digits (reversed) are `ds`.  A match starts at a digit
immediately preceded by `marker`, extends greedily through the following
digits (`\d+`), and scanning resumes after it (`findall` returns
non-overlapping matches in order of appearance).  `\d` is modelled as an
ASCII digit. -/
def scanAux : List Char → Option (List Char) → List Char → List (List Char)
  | _, some ds, [] => [ds.reverse]
  | _, none, [] => []
  | pre, some ds, c :: cs =>
    if c.isDigit then scanAux (c :: pre) (some (c :: ds)) cs
    else ds.reverse :: scanAux (c :: pre) none cs
  | pre, none, c :: cs =>
    if marker.reverse.isPrefixOf pre && c.isDigit then
      scanAux (c :: pre) (some [c]) cs
    else scanAux (c :: pre) none cs

/-- `pattern.findall(html)`. -/
def findall (html : List Char) : List (List Char) := scanAux [] none html

/-- `scrape`, applied to the fetched payload text. -/
def scrape (html : List Char) : List Nat := (findall html).map parseNat

/-! ## Store -/

/-- The sqlite table: `K` rank columns plus the primary-key id column.
`rows` is in insertion (rowid) order. -/
structure Table where
  K : Nat
  rows : List (Nat × List Nat)
deriving DecidableEq

/-- A table as created by `query_create`: all rows have `K` counters and
ids are unique (`id INTEGER PRIMARY KEY`). -/
def WF (t : Table) : Prop :=
  (∀ p ∈ t.rows, p.2.length = t.K) ∧ (t.rows.map Prod.fst).Nodup

instance (t : Table) : Decidable (WF t) := by unfold WF; infer_instance

/-- The freshly created empty table (`CREATE TABLE IF NOT EXISTS` with
`num_results = K` rank columns). -/
def fresh (K : Nat) : Table := ⟨K, []⟩

/-- `SELECT ... WHERE id=?` row lookup. -/
def lookupRow (t : Table) (id : Nat) : Option (List Nat) :=
  (t.rows.find? (fun p => p.1 == id)).map (fun p => p.2)

/-- Whether an id has a row. -/
def present (t : Table) (id : Nat) : Bool := (lookupRow t id).isSome

/-- The value of rank column `c` of the row for `id` (`0` when absent). -/
def counterVal (t : Table) (id c : Nat) : Nat :=
  (((lookupRow t id).getD []).getD c 0)

/-- The sum of rank column `c` over all rows. -/
def colSum (t : Table) (c : Nat) : Nat :=
  (t.rows.map (fun p => p.2.getD c 0)).sum

/-- The list of keys in row order. -/
def keys (t : Table) : List Nat := t.rows.map Prod.fst

/-- `INSERT OR IGNORE INTO fren (id) VALUES (?)`: a new row gets the
`DEFAULT 0` counters. -/
def query_insert (t : Table) (id : Nat) : Table :=
  if present t id then t
  else ⟨t.K, t.rows ++ [(id, List.replicate t.K 0)]⟩

/-- The insert loop `for i in range(num_results): c.execute(query_insert,
(matches[i],))` — the spec's `ensure_rows`. -/
def ensure_rows (t : Table) (ids : List Nat) : Table :=
  ids.foldl query_insert t

/-- Errors `update_ranks` can raise: `sqlite3.OperationalError` for a
missing `rank{r}` column, `TypeError` when `fetchone()` returns `None`. -/
inductive StoreError where
  | noSuchColumn (rank : Nat)
  | fetchNone (id : Nat)
deriving DecidableEq

/-- `UPDATE fren SET rank{c}=v WHERE id=?`. -/
def updateRow (t : Table) (id c v : Nat) : Table :=
  ⟨t.K, t.rows.map (fun p => if p.1 == id then (p.1, p.2.set c v) else p)⟩

/-- The loop body of `update_ranks`, from position `rank` on:
`SELECT rank{rank} FROM fren WHERE id=?` (errors if the column does not
exist), `n = c.fetchone()[0]` (errors if there is no row), then
`UPDATE fren SET rank{rank}=n+1 WHERE id=?`. -/
def updateRanksAux (t : Table) (rank : Nat) : List Nat → Except StoreError Table
  | [] => .ok t
  | m :: ms =>
    if rank < t.K then
      match lookupRow t m with
      | none => .error (.fetchNone m)
      | some cs => updateRanksAux (updateRow t m rank (cs.getD rank 0 + 1)) (rank + 1) ms
    else .error (.noSuchColumn rank)

/-- `update_ranks(matches)`: `for rank, match in enumerate(matches): ...`,
followed by `conn.commit()`. -/
def update_ranks (t : Table) (ms : List Nat) : Except StoreError Table :=
  updateRanksAux t 0 ms

/-- The durable state after a call to `update_ranks`: the committed table
on success; on an exception the commit is never reached and the open
transaction is rolled back, so the stored table is unchanged. -/
def recordRound (t : Table) (ms : List Nat) : Table :=
  match update_ranks t ms with
  | .ok t' => t'
  | .error _ => t

/-! ## Driver -/

/-- `collect(num_requests, wait_time)`, with the fetched payloads replaced
by the per-round id lists they parse to: each iteration sleeps (no effect
on the store), scrapes, and calls `update_ranks` — nothing else.  An
exception aborts the run. -/
def collect (t : Table) : List (List Nat) → Except StoreError Table
  | [] => .ok t
  | ms :: rest =>
    match update_ranks t ms with
    | .ok t' => collect t' rest
    | .error e => .error e

/-- One round as the spec describes it (and as the one-time setup cells
perform it): insert-or-ignore every fetched id, then `update_ranks`. -/
def roundStep (t : Table) (ms : List Nat) : Except StoreError Table :=
  update_ranks (ensure_rows t ms) ms

/-- Iterated `roundStep`: the spec's claimed `collect` behaviour
(`ensure_rows` before each `record_round`). -/
def runRounds (t : Table) : List (List Nat) → Except StoreError Table
  | [] => .ok t
  | ms :: rest =>
    match roundStep t ms with
    | .ok t' => runRounds t' rest
    | .error e => .error e

/-- `get_ranks(rank)`: `SELECT rank{rank} FROM fren`, all rows; raises if
the column does not exist. -/
def get_ranks (t : Table) (rank : Nat) : Option (List Nat) :=
  if rank < t.K then some (t.rows.map (fun p => p.2.getD rank 0)) else none

/-- `num_samples(rank) = sum(get_ranks(rank))`. -/
def num_samples (t : Table) (rank : Nat) : Option Nat :=
  (get_ranks t rank).map List.sum

/-- `min_samples = 5 * num_results`. -/
def min_samples (numResults : Nat) : Nat := 5 * numResults

/-- `num_requests = max(0, 2 * min_samples - num_samples(rank))` (Python
int arithmetic, so the subtraction is over ℤ). -/
def num_requests (numResults : Nat) (t : Table) (rank : Nat) : Option Int :=
  (num_samples t rank).map
    (fun (cur : Nat) => max 0 (2 * (min_samples numResults : Int) - (cur : Int)))

/-! ## Basic store lemmas -/

lemma present_iff_mem_keys (t : Table) (i : Nat) :
    present t i = true ↔ i ∈ keys t := by
  unfold present lookupRow keys
  rw [Option.isSome_map', List.find?_isSome]
  constructor
  · rintro ⟨x, hx, hpx⟩
    exact List.mem_map.mpr ⟨x, hx, by simpa using hpx⟩
  · intro h
    obtain ⟨x, hx, hfx⟩ := List.mem_map.mp h
    exact ⟨x, hx, by simpa using hfx⟩

lemma K_query_insert (t : Table) (i : Nat) : (query_insert t i).K = t.K := by
  unfold query_insert; split <;> rfl

lemma lookupRow_query_insert_of_present (t : Table) (i j : Nat)
    (h : present t j = true) :
    lookupRow (query_insert t i) j = lookupRow t j := by
  unfold query_insert
  split
  · rfl
  · unfold present lookupRow at h
    unfold lookupRow
    rw [Option.isSome_map'] at h
    simp only [List.find?_append]
    cases hf : t.rows.find? (fun p => p.1 == j) with
    | none => rw [hf] at h; simp at h
    | some p => simp [Option.or]

lemma lookupRow_query_insert_self (t : Table) (i : Nat)
    (h : present t i = false) :
    lookupRow (query_insert t i) i = some (List.replicate t.K 0) := by
  unfold present lookupRow at h
  rw [Option.isSome_map'] at h
  unfold query_insert
  rw [if_neg (by unfold present lookupRow; rw [Option.isSome_map']; simp [h])]
  unfold lookupRow
  simp only [List.find?_append]
  cases hf : t.rows.find? (fun p => p.1 == i) with
  | none => simp [Option.or, List.find?]
  | some p => rw [hf] at h; simp at h

lemma present_query_insert_of_ne (t : Table) (i j : Nat) (h : j ≠ i) :
    present (query_insert t i) j = present t j := by
  unfold query_insert
  split
  · rfl
  · unfold present lookupRow
    simp only [List.find?_append, List.find?]
    have : ((i == j) : Bool) = false := by simp [(Ne.symm h)]
    cases hf : t.rows.find? (fun p => p.1 == j) <;> simp [Option.or, this]

lemma present_query_insert_self (t : Table) (i : Nat) :
    present (query_insert t i) i = true := by
  cases h : present t i with
  | true =>
    unfold query_insert
    rw [if_pos h]; exact h
  | false =>
    unfold present
    rw [lookupRow_query_insert_self t i h]
    rfl

lemma present_query_insert_mono (t : Table) (i j : Nat)
    (h : present t j = true) : present (query_insert t i) j = true := by
  by_cases hji : j = i
  · subst hji; exact present_query_insert_self t j
  · rw [present_query_insert_of_ne t i j hji]; exact h

lemma keys_query_insert (t : Table) (i : Nat) :
    keys (query_insert t i) =
      keys t ++ (if present t i then [] else [i]) := by
  unfold query_insert keys
  split <;> simp_all

lemma WF_query_insert (t : Table) (i : Nat) (h : WF t) :
    WF (query_insert t i) := by
  obtain ⟨hlen, hnd⟩ := h
  constructor
  · intro p hp
    rw [K_query_insert]
    unfold query_insert at hp
    split at hp
    · exact hlen p hp
    · simp only [List.mem_append, List.mem_singleton] at hp
      rcases hp with hp | hp
      · exact hlen p hp
      · subst hp; simp
  · show ((query_insert t i).rows.map Prod.fst).Nodup
    have : (query_insert t i).rows.map Prod.fst = keys (query_insert t i) := rfl
    rw [this, keys_query_insert]
    cases hpi : present t i with
    | true => simpa using hnd
    | false =>
      rw [if_neg (by simp)]
      rw [List.nodup_append]
      refine ⟨hnd, List.nodup_singleton i, ?_⟩
      intro a ha hb
      simp only [List.mem_singleton] at hb
      subst hb
      have : present t a = true := (present_iff_mem_keys t a).mpr ha
      rw [this] at hpi; cases hpi

lemma colSum_query_insert (t : Table) (i : Nat) (c : Nat) :
    colSum (query_insert t i) c = colSum t c := by
  unfold query_insert colSum
  split
  · rfl
  · simp only [List.map_append, List.sum_append, List.map_cons, List.map_nil]
    have : (List.replicate t.K 0).getD c 0 = 0 := by
      rw [List.getD_eq_getElem?_getD, List.getElem?_replicate]
      split <;> rfl
    simp [this]

/-! ## `ensure_rows` lemmas (folds of the insert-loop lemmas) -/

lemma K_ensure_rows (ids : List Nat) : ∀ t : Table, (ensure_rows t ids).K = t.K := by
  induction ids with
  | nil => intro t; rfl
  | cons i rest ih =>
    intro t
    show (ensure_rows (query_insert t i) rest).K = t.K
    rw [ih, K_query_insert]

lemma colSum_ensure_rows (ids : List Nat) : ∀ (t : Table) (c : Nat),
    colSum (ensure_rows t ids) c = colSum t c := by
  induction ids with
  | nil => intro t c; rfl
  | cons i rest ih =>
    intro t c
    show colSum (ensure_rows (query_insert t i) rest) c = colSum t c
    rw [ih, colSum_query_insert]

lemma WF_ensure_rows (ids : List Nat) : ∀ t : Table, WF t → WF (ensure_rows t ids) := by
  induction ids with
  | nil => intro t h; exact h
  | cons i rest ih =>
    intro t h
    exact ih (query_insert t i) (WF_query_insert t i h)

lemma present_ensure_rows_mono (ids : List Nat) : ∀ (t : Table) (j : Nat),
    present t j = true → present (ensure_rows t ids) j = true := by
  induction ids with
  | nil => intro t j h; exact h
  | cons i rest ih =>
    intro t j h
    exact ih (query_insert t i) j (present_query_insert_mono t i j h)

lemma present_ensure_rows_of_mem (ids : List Nat) : ∀ (t : Table) (j : Nat),
    j ∈ ids → present (ensure_rows t ids) j = true := by
  induction ids with
  | nil => intro t j h; cases h
  | cons i rest ih =>
    intro t j h
    rcases List.mem_cons.mp h with h | h
    · subst h
      exact present_ensure_rows_mono rest (query_insert t j) j
        (present_query_insert_self t j)
    · exact ih (query_insert t i) j h

lemma lookupRow_ensure_rows_of_present (ids : List Nat) : ∀ (t : Table) (j : Nat),
    present t j = true → lookupRow (ensure_rows t ids) j = lookupRow t j := by
  induction ids with
  | nil => intro t j _; rfl
  | cons i rest ih =>
    intro t j h
    show lookupRow (ensure_rows (query_insert t i) rest) j = lookupRow t j
    rw [ih (query_insert t i) j (present_query_insert_mono t i j h),
      lookupRow_query_insert_of_present t i j h]

lemma lookupRow_ensure_rows_new (ids : List Nat) : ∀ (t : Table) (j : Nat),
    j ∈ ids → present t j = false →
    lookupRow (ensure_rows t ids) j = some (List.replicate t.K 0) := by
  induction ids with
  | nil => intro t j h; cases h
  | cons i rest ih =>
    intro t j hmem hpres
    show lookupRow (ensure_rows (query_insert t i) rest) j = _
    by_cases hji : j = i
    · subst hji
      rw [lookupRow_ensure_rows_of_present rest (query_insert t j) j
        (present_query_insert_self t j)]
      exact lookupRow_query_insert_self t j hpres
    · rcases List.mem_cons.mp hmem with h | h
      · exact absurd h hji
      · rw [ih (query_insert t i) j h
          (by rw [present_query_insert_of_ne t i j hji]; exact hpres),
          K_query_insert]

lemma ensure_rows_of_all_present (ids : List Nat) : ∀ t : Table,
    (∀ i ∈ ids, present t i = true) → ensure_rows t ids = t := by
  induction ids with
  | nil => intro t _; rfl
  | cons i rest ih =>
    intro t h
    show ensure_rows (query_insert t i) rest = t
    have hpi : present t i = true := h i (List.mem_cons_self i rest)
    have : query_insert t i = t := by unfold query_insert; rw [if_pos hpi]
    rw [this]
    exact ih t (fun j hj => h j (List.mem_cons_of_mem i hj))

lemma ensure_rows_idem (t : Table) (ids : List Nat) :
    ensure_rows (ensure_rows t ids) ids = ensure_rows t ids :=
  ensure_rows_of_all_present ids (ensure_rows t ids)
    (fun i hi => present_ensure_rows_of_mem ids t i hi)

/-! ## `updateRow` lemmas -/

lemma find?_map_update (rows : List (Nat × List Nat)) (m id c v : Nat) :
    (rows.map (fun p => if p.1 == m then (p.1, p.2.set c v) else p)).find?
        (fun p => p.1 == id)
      = (rows.find? (fun p => p.1 == id)).map
          (fun p => if p.1 == m then (p.1, p.2.set c v) else p) := by
  induction rows with
  | nil => rfl
  | cons p rest ih =>
    have h1 : ((if p.1 == m then (p.1, p.2.set c v) else p) : Nat × List Nat).1 = p.1 := by
      split <;> rfl
    simp only [List.map_cons, List.find?_cons, h1]
    cases hid : (p.1 == id) with
    | true => simp
    | false => simpa using ih

lemma lookupRow_updateRow (t : Table) (m id c v : Nat) :
    lookupRow (updateRow t m c v) id =
      if id = m then (lookupRow t id).map (fun cs => cs.set c v)
      else lookupRow t id := by
  unfold lookupRow updateRow
  simp only
  rw [find?_map_update]
  cases hf : t.rows.find? (fun p => p.1 == id) with
  | none => simp
  | some p =>
    have hp : p.1 = id := by simpa using List.find?_some hf
    by_cases hid : id = m
    · subst hid
      simp [hp]
    · simp [hp, hid]

lemma keys_updateRow (t : Table) (m c v : Nat) :
    keys (updateRow t m c v) = keys t := by
  unfold keys updateRow
  simp only [List.map_map]
  apply List.map_congr_left
  intro p _
  by_cases hm : (p.1 == m) = true <;> simp [Function.comp, hm]

lemma present_updateRow (t : Table) (m c v id : Nat) :
    present (updateRow t m c v) id = present t id := by
  unfold present
  rw [lookupRow_updateRow]
  split <;> simp [Option.isSome_map']

lemma WF_updateRow (t : Table) (m c v : Nat) (h : WF t) :
    WF (updateRow t m c v) := by
  obtain ⟨hlen, hnd⟩ := h
  constructor
  · intro p hp
    simp only [updateRow, List.mem_map] at hp
    obtain ⟨q, hq, rfl⟩ := hp
    by_cases hm : (q.1 == m) = true
    · rw [if_pos hm]
      show (q.2.set c v).length = (updateRow t m c v).K
      rw [List.length_set]
      exact hlen q hq
    · rw [if_neg hm]
      exact hlen q hq
  · show ((updateRow t m c v).rows.map Prod.fst).Nodup
    have hk : (updateRow t m c v).rows.map Prod.fst = keys (updateRow t m c v) := rfl
    rw [hk, keys_updateRow]
    exact hnd

lemma counterVal_updateRow_ne (t : Table) (m c v id c' : Nat) (h : id ≠ m) :
    counterVal (updateRow t m c v) id c' = counterVal t id c' := by
  unfold counterVal
  rw [lookupRow_updateRow, if_neg h]

lemma counterVal_updateRow_self (t : Table) (m c v c' : Nat) (cs : List Nat)
    (h : lookupRow t m = some cs) :
    counterVal (updateRow t m c v) m c' = (cs.set c v).getD c' 0 := by
  unfold counterVal
  rw [lookupRow_updateRow, if_pos rfl, h]
  rfl

lemma counterVal_of_lookup (t : Table) (m c : Nat) (cs : List Nat)
    (h : lookupRow t m = some cs) : counterVal t m c = cs.getD c 0 := by
  unfold counterVal
  rw [h]
  rfl

lemma lookupRow_length (t : Table) (m : Nat) (cs : List Nat) (hwf : WF t)
    (h : lookupRow t m = some cs) : cs.length = t.K := by
  unfold lookupRow at h
  cases hf : t.rows.find? (fun p => p.1 == m) with
  | none => rw [hf] at h; cases h
  | some p =>
    rw [hf] at h
    have : p.2 = cs := by simpa using h
    rw [← this]
    exact hwf.1 p (List.mem_of_find?_eq_some hf)

lemma map_update_id (rows : List (Nat × List Nat)) (m c v : Nat)
    (h : ∀ q ∈ rows, (q.1 == m) = false) :
    rows.map (fun p => if p.1 == m then (p.1, p.2.set c v) else p) = rows := by
  induction rows with
  | nil => rfl
  | cons p rest ih =>
    simp only [List.map_cons]
    have hp := h p (List.mem_cons_self p rest)
    rw [if_neg (by rw [hp]; simp), ih (fun q hq => h q (List.mem_cons_of_mem p hq))]

lemma colSum_updateRow_other (t : Table) (m c v c' : Nat) (h : c' ≠ c) :
    colSum (updateRow t m c v) c' = colSum t c' := by
  unfold colSum updateRow
  simp only [List.map_map]
  apply congrArg List.sum
  apply List.map_congr_left
  intro p _
  by_cases hm : (p.1 == m) = true
  · simp only [Function.comp, hm, if_pos]
    show (p.2.set c v).getD c' 0 = p.2.getD c' 0
    rw [List.getD_eq_getElem?_getD, List.getD_eq_getElem?_getD,
      List.getElem?_set_ne (Ne.symm h)]
  · simp [Function.comp, hm]

lemma colSum_rows_update (m c v : Nat) (rows : List (Nat × List Nat)) :
    ∀ p0 : Nat × List Nat,
      (rows.map Prod.fst).Nodup →
      rows.find? (fun p => p.1 == m) = some p0 →
      c < p0.2.length → v = p0.2.getD c 0 + 1 →
      ((rows.map (fun p => if p.1 == m then (p.1, p.2.set c v) else p)).map
          (fun p => p.2.getD c 0)).sum
        = ((rows.map (fun p => p.2.getD c 0)).sum) + 1 := by
  induction rows with
  | nil => intro p0 _ hf; cases hf
  | cons p rest ih =>
    intro p0 hnd hf hc hv
    rw [List.map_cons, List.nodup_cons] at hnd
    rw [List.find?_cons] at hf
    cases hm : (p.1 == m) with
    | true =>
      rw [hm] at hf
      have hp0 : p = p0 := by simpa using hf
      have hmfst : p.1 = m := by simpa using hm
      have hc' : c < p.2.length := by rw [hp0]; exact hc
      have hv' : v = p.2.getD c 0 + 1 := by rw [hp0]; exact hv
      have htail : ∀ q ∈ rest, (q.1 == m) = false := by
        intro q hq
        cases hqm : (q.1 == m) with
        | false => rfl
        | true =>
          have hq1 : q.1 = m := by simpa using hqm
          exact absurd (by rw [hmfst, ← hq1]; exact List.mem_map_of_mem Prod.fst hq)
            hnd.1
      simp only [List.map_cons, if_pos hm, map_update_id rest m c v htail]
      have hhead : (p.2.set c v).getD c 0 = v := by
        rw [List.getD_eq_getElem?_getD, List.getElem?_set_self hc']
        rfl
      simp only [List.map_cons, List.sum_cons]
      rw [hhead]
      omega
    | false =>
      rw [hm] at hf
      have hf' : rest.find? (fun p => p.1 == m) = some p0 := hf
      have hmneg : ¬((p.1 == m) = true) := by rw [hm]; exact Bool.false_ne_true
      simp only [List.map_cons, if_neg hmneg]
      simp only [List.sum_cons, ih p0 hnd.2 hf' hc hv]
      omega

lemma colSum_updateRow_self (t : Table) (m c : Nat) (cs : List Nat)
    (hnd : (t.rows.map Prod.fst).Nodup)
    (hf : lookupRow t m = some cs) (hc : c < cs.length) :
    colSum (updateRow t m c (cs.getD c 0 + 1)) c = colSum t c + 1 := by
  unfold lookupRow at hf
  cases hff : t.rows.find? (fun p => p.1 == m) with
  | none => rw [hff] at hf; cases hf
  | some p0 =>
    rw [hff] at hf
    have hcs : p0.2 = cs := by simpa using hf
    unfold colSum updateRow
    exact colSum_rows_update m c (cs.getD c 0 + 1) t.rows p0 hnd hff
      (by rw [hcs]; exact hc) (by rw [hcs])

/-! ## The `update_ranks` loop -/

lemma lookupRow_of_present (t : Table) (m : Nat) (h : present t m = true) :
    ∃ cs, lookupRow t m = some cs := by
  unfold present at h
  cases hl : lookupRow t m with
  | none => rw [hl] at h; cases h
  | some cs => exact ⟨cs, rfl⟩

lemma lookupRow_of_absent (t : Table) (m : Nat) (h : present t m = false) :
    lookupRow t m = none := by
  unfold present at h
  cases hl : lookupRow t m with
  | none => rfl
  | some cs => rw [hl] at h; cases h

lemma updateRanksAux_spec (ms : List Nat) : ∀ (t : Table) (r : Nat),
    WF t → (∀ m ∈ ms, present t m = true) → r + ms.length ≤ t.K →
    ∃ t', updateRanksAux t r ms = .ok t' ∧ t'.K = t.K ∧ keys t' = keys t ∧ WF t' ∧
      (∀ id c, counterVal t' id c =
        counterVal t id c + (if r ≤ c ∧ ms[c - r]? = some id then 1 else 0)) ∧
      (∀ c, colSum t' c = colSum t c + (if r ≤ c ∧ c < r + ms.length then 1 else 0)) := by
  induction ms with
  | nil =>
    intro t r hwf _ _
    refine ⟨t, rfl, rfl, rfl, hwf, ?_, ?_⟩
    · intro id c; simp
    · intro c
      have hno : ¬(r ≤ c ∧ c < r + ([] : List Nat).length) := by
        rintro ⟨h1, h2⟩
        rw [List.length_nil] at h2
        omega
      rw [if_neg hno]
      omega
  | cons m ms ih =>
    intro t r hwf hpres hlen
    rw [List.length_cons] at hlen
    have hrK : r < t.K := by omega
    have hm : present t m = true := hpres m (List.mem_cons_self m ms)
    obtain ⟨cs, hcs⟩ := lookupRow_of_present t m hm
    have hcsl : cs.length = t.K := lookupRow_length t m cs hwf hcs
    set t1 := updateRow t m r (cs.getD r 0 + 1) with ht1
    have hK1 : t1.K = t.K := rfl
    have hwf1 : WF t1 := WF_updateRow t m r _ hwf
    have hpres1 : ∀ x ∈ ms, present t1 x = true := fun x hx =>
      (present_updateRow t m r _ x).trans (hpres x (List.mem_cons_of_mem m hx))
    have hlen1 : (r + 1) + ms.length ≤ t1.K := by rw [hK1]; omega
    obtain ⟨t', hok, hK', hkeys', hwf', hcnt', hcol'⟩ := ih t1 (r + 1) hwf1 hpres1 hlen1
    have hstep : updateRanksAux t r (m :: ms) = updateRanksAux t1 (r + 1) ms := by
      simp only [updateRanksAux, if_pos hrK, hcs]
    refine ⟨t', hstep ▸ hok, hK'.trans hK1, hkeys'.trans (keys_updateRow t m r _),
      hwf', ?_, ?_⟩
    · intro id c
      rw [hcnt' id c]
      have hval : counterVal t1 id c =
          counterVal t id c + (if id = m ∧ c = r then 1 else 0) := by
        by_cases hid : id = m
        · subst hid
          rw [counterVal_updateRow_self t id r _ c cs hcs,
            counterVal_of_lookup t id c cs hcs]
          by_cases hcr : c = r
          · subst hcr
            rw [List.getD_eq_getElem?_getD,
              List.getElem?_set_self (by omega : c < cs.length),
              if_pos ⟨rfl, rfl⟩]
            rfl
          · rw [List.getD_eq_getElem?_getD,
              List.getElem?_set_ne (fun h => hcr h.symm),
              ← List.getD_eq_getElem?_getD,
              if_neg (by rintro ⟨-, h2⟩; exact hcr h2)]
            omega
        · rw [counterVal_updateRow_ne t m r _ id c hid,
            if_neg (by rintro ⟨h1, -⟩; exact hid h1)]
          omega
      rw [hval]
      rcases Nat.lt_trichotomy c r with hlt | heq | hgt
      · rw [if_neg (by rintro ⟨-, h2⟩; omega),
          if_neg (by rintro ⟨h1, -⟩; omega),
          if_neg (by rintro ⟨h1, -⟩; omega)]
      · subst heq
        by_cases hid : id = m
        · subst hid
          rw [if_pos ⟨rfl, rfl⟩,
            if_neg (by rintro ⟨h1, -⟩; omega),
            if_pos ⟨le_refl c, by simp⟩]
        · have hnc : ¬((m :: ms)[c - c]? = some id) := by
            rw [Nat.sub_self, List.getElem?_cons_zero]
            intro h2
            exact hid (by simpa using h2.symm)
          rw [if_neg (by rintro ⟨h1, -⟩; exact hid h1),
            if_neg (by rintro ⟨h1, -⟩; omega),
            if_neg (by rintro ⟨-, h2⟩; exact hnc h2)]
      · have hsub : c - r = (c - (r + 1)) + 1 := by omega
        have hms : (m :: ms)[c - r]? = ms[c - (r + 1)]? := by
          rw [hsub, List.getElem?_cons_succ]
        rw [if_neg (by rintro ⟨-, h2⟩; omega)]
        by_cases hx : ms[c - (r + 1)]? = some id
        · rw [if_pos ⟨by omega, hx⟩, if_pos ⟨by omega, by rw [hms]; exact hx⟩]
        · rw [if_neg (by rintro ⟨-, h2⟩; exact hx h2),
            if_neg (by rintro ⟨-, h2⟩; rw [hms] at h2; exact hx h2)]
    · intro c
      rw [hcol' c]
      have hcol1 : colSum t1 c = colSum t c + (if c = r then 1 else 0) := by
        by_cases hcr : c = r
        · subst hcr
          rw [colSum_updateRow_self t m c cs hwf.2 hcs (by omega), if_pos rfl]
        · rw [colSum_updateRow_other t m r _ c hcr, if_neg hcr]
          omega
      rw [hcol1, List.length_cons]
      split_ifs <;> omega

lemma updateRanksAux_fail (ms : List Nat) : ∀ (t : Table) (r j id : Nat),
    WF t → r + ms.length ≤ t.K →
    ms[j]? = some id → present t id = false →
    (∀ i, i < j → ∀ x, ms[i]? = some x → present t x = true) →
    updateRanksAux t r ms = .error (.fetchNone id) := by
  induction ms with
  | nil => intro t r j id _ _ hj _ _; simp at hj
  | cons m ms ih =>
    intro t r j id hwf hlen hj hid hprev
    rw [List.length_cons] at hlen
    have hrK : r < t.K := by omega
    cases j with
    | zero =>
      have hm : m = id := by simpa using hj
      subst hm
      have hlook : lookupRow t m = none := lookupRow_of_absent t m hid
      simp only [updateRanksAux, if_pos hrK, hlook]
    | succ j' =>
      have hm : present t m = true := hprev 0 (Nat.succ_pos j') m (by simp)
      obtain ⟨cs, hcs⟩ := lookupRow_of_present t m hm
      simp only [updateRanksAux, if_pos hrK, hcs]
      refine ih (updateRow t m r (cs.getD r 0 + 1)) (r + 1) j' id
        (WF_updateRow t m r _ hwf) (by show r + 1 + ms.length ≤ t.K; omega)
        (by simpa using hj)
        (by rw [present_updateRow]; exact hid)
        ?_
      intro i hi x hx
      rw [present_updateRow]
      exact hprev (i + 1) (by omega) x (by simpa using hx)

/-! ## Scraper lemmas -/

lemma scanAux_nil_of_no_match : ∀ (l pre : List Char),
    (¬ ∃ a b, ∃ c : Char, l = a ++ c :: b ∧ c.isDigit = true ∧
      (marker.reverse.isPrefixOf (a.reverse ++ pre)) = true) →
    scanAux pre none l = [] := by
  intro l
  induction l with
  | nil => intro pre _; rfl
  | cons x xs ih =>
    intro pre hno
    have hcond : (marker.reverse.isPrefixOf pre && x.isDigit) = false := by
      cases h : marker.reverse.isPrefixOf pre && x.isDigit
      · rfl
      · rw [Bool.and_eq_true] at h
        exact absurd ⟨[], xs, x, rfl, h.2, by simpa using h.1⟩ hno
    show scanAux pre none (x :: xs) = []
    rw [show scanAux pre none (x :: xs) =
        (if marker.reverse.isPrefixOf pre && x.isDigit then
          scanAux (x :: pre) (some [x]) xs
        else scanAux (x :: pre) none xs) from rfl,
      hcond]
    simp only [Bool.false_eq_true, if_false]
    apply ih
    rintro ⟨a, b, c, hsplit, hdig, hpre⟩
    refine absurd ⟨x :: a, b, c, by rw [hsplit]; rfl, hdig, ?_⟩ hno
    simpa [List.append_assoc] using hpre

lemma scanAux_digits : ∀ (l : List Char) (pre : List Char) (cur : Option (List Char)),
    (∀ ds, cur = some ds → ds ≠ [] ∧ ∀ ch ∈ ds, ch.isDigit = true) →
    ∀ mt ∈ scanAux pre cur l, mt ≠ [] ∧ ∀ ch ∈ mt, ch.isDigit = true := by
  intro l
  induction l with
  | nil =>
    intro pre cur hcur mt hmt
    cases cur with
    | none => cases hmt
    | some ds =>
      have hds := hcur ds rfl
      have : mt = ds.reverse := by simpa [scanAux] using hmt
      subst this
      refine ⟨by simpa using hds.1, fun ch hch => hds.2 ch (by simpa using hch)⟩
  | cons x xs ih =>
    intro pre cur hcur mt hmt
    cases cur with
    | some ds =>
      have hds := hcur ds rfl
      by_cases hx : x.isDigit = true
      · rw [show scanAux pre (some ds) (x :: xs) =
            (if x.isDigit then scanAux (x :: pre) (some (x :: ds)) xs
             else ds.reverse :: scanAux (x :: pre) none xs) from rfl,
          if_pos hx] at hmt
        refine ih (x :: pre) (some (x :: ds)) ?_ mt hmt
        rintro ds' hds'
        obtain rfl : x :: ds = ds' := by simpa using hds'
        refine ⟨by simp, fun ch hch => ?_⟩
        rcases List.mem_cons.mp hch with h | h
        · subst h; exact hx
        · exact hds.2 ch h
      · rw [show scanAux pre (some ds) (x :: xs) =
            (if x.isDigit then scanAux (x :: pre) (some (x :: ds)) xs
             else ds.reverse :: scanAux (x :: pre) none xs) from rfl,
          if_neg hx] at hmt
        rcases List.mem_cons.mp hmt with h | h
        · subst h
          exact ⟨by simpa using hds.1, fun ch hch => hds.2 ch (by simpa using hch)⟩
        · exact ih (x :: pre) none (by rintro ds' ⟨⟩) mt h
    | none =>
      by_cases hc : (marker.reverse.isPrefixOf pre && x.isDigit) = true
      · rw [show scanAux pre none (x :: xs) =
            (if marker.reverse.isPrefixOf pre && x.isDigit then
              scanAux (x :: pre) (some [x]) xs
            else scanAux (x :: pre) none xs) from rfl,
          if_pos hc] at hmt
        refine ih (x :: pre) (some [x]) ?_ mt hmt
        rintro ds' hds'
        obtain rfl : [x] = ds' := by simpa using hds'
        refine ⟨by simp, fun ch hch => ?_⟩
        obtain rfl : ch = x := by simpa using hch
        exact (Bool.and_eq_true _ _ |>.mp hc).2
      · rw [show scanAux pre none (x :: xs) =
            (if marker.reverse.isPrefixOf pre && x.isDigit then
              scanAux (x :: pre) (some [x]) xs
            else scanAux (x :: pre) none xs) from rfl,
          if_neg hc] at hmt
        exact ih (x :: pre) none (by rintro ds' ⟨⟩) mt hmt

lemma findall_nil_of_no_match (html : List Char)
    (hno : ¬ ∃ a b, ∃ c : Char, html = a ++ c :: b ∧ c.isDigit = true ∧
      marker <:+ a) :
    findall html = [] := by
  apply scanAux_nil_of_no_match
  rintro ⟨a, b, c, hsplit, hdig, hpre⟩
  refine absurd ⟨a, b, c, hsplit, hdig, ?_⟩ hno
  rw [List.append_nil] at hpre
  exact List.reverse_prefix.mp (List.isPrefixOf_iff_prefix.mp hpre)

/-! ## Analyzer: `_, p = stats.chisquare(ranks); if p < 0.05: print("Reject ...")`

`stats.chisquare(f_obs)` with no `f_exp` uses the mean of `f_obs` as the
expected frequency of every category; the statistic is
`sum((f_obs - f_exp)**2 / f_exp)` and the p-value is the upper tail of the
chi-square distribution with `len(f_obs) - 1` degrees of freedom.  The
floating-point numerics of scipy are modelled by exact rational arithmetic
for the statistic and by the chi-square measure over ℝ (the gamma
distribution with shape `df/2` and rate `1/2`) for the p-value. -/

/-- The chi-square statistic of `stats.chisquare(obs)` (expected frequency
= mean of `obs`). -/
def chisqStat (obs : List ℚ) : ℚ :=
  (obs.map (fun o =>
    (o - obs.sum / obs.length) ^ 2 / (obs.sum / obs.length))).sum

/-- Upper-tail probability of the chi-square distribution with `df`
degrees of freedom: the p-value returned by `stats.chisquare`. -/
noncomputable def chiSquarePValue (df : ℕ) (x : ℝ) : ℝ :=
  (ProbabilityTheory.gammaMeasure ((df : ℝ) / 2) (1 / 2) (Set.Ioi x)).toReal

/-- The statistic the analyzer loop computes for one rank column. -/
def analyzeRank (t : Table) (rank : Nat) : Option ℚ :=
  (get_ranks t rank).map (fun l => chisqStat (l.map (fun n => (n : ℚ))))

/-- The analyzer's decision for one rank: `p < 0.05` prints "Reject null
hypothesis".  `len(ranks) = t.rows.length` rows give `df = len - 1`. -/
def rejectRank (t : Table) (rank : Nat) : Prop :=
  ∃ q, analyzeRank t rank = some q ∧
    chiSquarePValue (t.rows.length - 1) ((q : ℝ)) < 0.05

lemma chiSquare_measure_Iic_zero (df : ℕ) :
    ProbabilityTheory.gammaMeasure ((df : ℝ) / 2) (1 / 2) (Set.Iic 0) = 0 := by
  rw [ProbabilityTheory.gammaMeasure,
    MeasureTheory.withDensity_apply _ measurableSet_Iic,
    lintegral_Iic_eq_lintegral_Iio_add_Icc _ (le_refl (0 : ℝ)),
    ProbabilityTheory.lintegral_gammaPDF_of_nonpos (le_refl (0 : ℝ)),
    Set.Icc_self,
    MeasureTheory.setLIntegral_measure_zero _ _ Real.volume_singleton]
  simp

lemma chiSquarePValue_zero (df : ℕ) (h : 0 < df) : chiSquarePValue df 0 = 1 := by
  have hdf : (0 : ℝ) < df := by exact_mod_cast h
  have ha : (0 : ℝ) < (df : ℝ) / 2 := by positivity
  have hr : (0 : ℝ) < 1 / 2 := by norm_num
  haveI := ProbabilityTheory.isProbabilityMeasureGamma ha hr
  unfold chiSquarePValue
  rw [← Set.compl_Iic, MeasureTheory.prob_compl_eq_one_sub measurableSet_Iic,
    chiSquare_measure_Iic_zero df]
  simp

lemma chisqStat_replicate (n : ℕ) (c : ℚ) (h : 0 < n) :
    chisqStat (List.replicate n c) = 0 := by
  unfold chisqStat
  have hm : (List.replicate n c).sum / ((List.replicate n c).length : ℚ) = c := by
    rw [List.sum_replicate, List.length_replicate, nsmul_eq_mul,
      mul_div_cancel_left₀ c (by exact_mod_cast h.ne' : (n : ℚ) ≠ 0)]
  rw [hm, List.map_replicate]
  simp

/-! ## Runs of complete rounds -/

lemma runRounds_spec (rounds : List (List Nat)) : ∀ t : Table, WF t →
    (∀ ms ∈ rounds, ms.length = t.K) →
    ∃ t', runRounds t rounds = .ok t' ∧ t'.K = t.K ∧ WF t' ∧
      ∀ c, c < t.K → colSum t' c = colSum t c + rounds.length := by
  induction rounds with
  | nil =>
    intro t hwf _
    exact ⟨t, rfl, rfl, hwf, fun c _ => by simp⟩
  | cons ms rest ih =>
    intro t hwf hlen
    have hwf0 : WF (ensure_rows t ms) := WF_ensure_rows ms t hwf
    have hK0 : (ensure_rows t ms).K = t.K := K_ensure_rows ms t
    have hpres : ∀ m ∈ ms, present (ensure_rows t ms) m = true :=
      fun m hm => present_ensure_rows_of_mem ms t m hm
    have hmslen : ms.length = t.K := hlen ms (List.mem_cons_self ms rest)
    obtain ⟨t1, hok1, hK1, -, hwf1, -, hcol1⟩ :=
      updateRanksAux_spec ms (ensure_rows t ms) 0 hwf0 hpres (by rw [hK0]; omega)
    obtain ⟨t', hok', hK', hwf', hcol'⟩ := ih t1 hwf1 (fun ms' h => by
      rw [hK1, hK0]
      exact hlen ms' (List.mem_cons_of_mem ms h))
    refine ⟨t', ?_, by rw [hK', hK1, hK0], hwf', ?_⟩
    · show runRounds t (ms :: rest) = .ok t'
      unfold runRounds roundStep update_ranks
      rw [hok1]
      exact hok'
    · intro c hc
      have h2 := hcol' c (by rw [hK1, hK0]; exact hc)
      rw [h2, hcol1 c, colSum_ensure_rows ms t c, List.length_cons,
        if_pos ⟨Nat.zero_le c, (by omega : c < 0 + ms.length)⟩]
      omega

/-! ## Concrete stores used in scenario statements -/

/-- The store after setting up a fresh `K = 3` table and recording the
round `[7, 3, 9]` (insert loop, then `update_ranks`). -/
def tA : Table := recordRound (ensure_rows (fresh 3) [7, 3, 9]) [7, 3, 9]

/-- Four identifiers each observed 25 times at rank 0 (`K = 1`): the
uniform synthetic dataset of the spec's analyzer scenario. -/
def uniformTable : Table := ⟨1, [(1, [25]), (2, [25]), (3, [25]), (4, [25])]⟩

/-- A `K = 2` store holding a single row for id 7 with zeroed counters. -/
def tQ : Table := ⟨2, [(7, [0, 0])]⟩

/-! ## The claims -/

/-- C1: recording a round whose identifiers all have rows (via
`update_ranks`) increments, for every 0-indexed position `c`, exactly the
rank-`c` counter of the row of the identifier at position `c`, and leaves
every other counter of every row unchanged. -/
theorem c1_record_round_increments (t : Table) (ms : List Nat)
    (hwf : WF t) (hpres : ∀ m ∈ ms, present t m = true)
    (hlen : ms.length ≤ t.K) :
    ∃ t', update_ranks t ms = .ok t' ∧ recordRound t ms = t' ∧
      ∀ id c, counterVal t' id c =
        counterVal t id c + (if ms[c]? = some id then 1 else 0) := by
  obtain ⟨t', hok, -, -, -, hcnt, -⟩ :=
    updateRanksAux_spec ms t 0 hwf hpres (by omega)
  refine ⟨t', hok, ?_, ?_⟩
  · unfold recordRound update_ranks
    rw [hok]
  · intro id c
    have h := hcnt id c
    simpa using h

/-- C1 witness: the spec's two-round scenario.  After the setup round
`[7, 3, 9]` the store is `tA`; recording `[3, 7, 9]` yields the row values
`{7 : [1,1,0], 3 : [1,1,0], 9 : [0,0,2]}` at the positions checked here. -/
theorem c1_witness :
    counterVal (recordRound tA [3, 7, 9]) 9 2 = 2 ∧
    counterVal (recordRound tA [3, 7, 9]) 7 1 = 1 ∧
    counterVal (recordRound tA [3, 7, 9]) 3 0 = 1 := by
  obtain ⟨t', hok, hrec, hcnt⟩ :=
    c1_record_round_increments tA [3, 7, 9] (by decide) (by decide) (by decide)
  refine ⟨?_, ?_, ?_⟩
  · rw [hrec, hcnt 9 2]; decide
  · rw [hrec, hcnt 7 1]; decide
  · rw [hrec, hcnt 3 0]; decide

/-- C2 counterexample: `collect` does *not* call the insert loop
(`ensure_rows`) before `update_ranks` — the inserts happen only in the
one-time setup cell.  On a fresh `K = 1` store, a collect round fetching
the previously unseen id 2 aborts with the `fetchone()` `TypeError`
instead of inserting a row, so `collect` differs from the spec's claimed
per-round `ensure_rows`-then-`record_round` behaviour (`runRounds`). -/
theorem c2_collect_counterexample :
    collect (fresh 1) [[2]] = .error (StoreError.fetchNone 2) ∧
    runRounds (fresh 1) [[2]] = .ok ⟨1, [(2, [1])]⟩ ∧
    collect (fresh 1) [[2]] ≠ runRounds (fresh 1) [[2]] :=
  ⟨rfl, rfl,
    fun h => Except.noConfusion
      (h : Except.error (StoreError.fetchNone 2) = Except.ok (⟨1, [(2, [1])]⟩ : Table))⟩

/-- C2 amended: each `collect` iteration waits the delay, calls the
Fetcher, and passes the fetched identifiers directly to
`Store.record_round` (`update_ranks`); `ensure_rows` is not called, so an
identifier first observed during a collect round makes the round fail
(aborting the run) rather than getting a fresh row. -/
theorem c2_collect_amended :
    (∀ (t : Table) (ms : List Nat) (rest : List (List Nat)) (t' : Table),
      update_ranks t ms = .ok t' → collect t (ms :: rest) = collect t' rest) ∧
    (∀ (t : Table) (ms : List Nat) (rest : List (List Nat)) (e : StoreError),
      update_ranks t ms = .error e → collect t (ms :: rest) = .error e) ∧
    (∀ (t : Table) (ms : List Nat) (rest : List (List Nat)) (j id : Nat),
      WF t → ms.length ≤ t.K → ms[j]? = some id → present t id = false →
      (∀ i, i < j → ∀ x, ms[i]? = some x → present t x = true) →
      collect t (ms :: rest) = .error (.fetchNone id)) := by
  have hstep : ∀ (t : Table) (ms : List Nat) (rest : List (List Nat)),
      collect t (ms :: rest) =
        match update_ranks t ms with
        | .ok t' => collect t' rest
        | .error e => .error e := fun _ _ _ => rfl
  refine ⟨?_, ?_, ?_⟩
  · intro t ms rest t' h
    rw [hstep, h]
  · intro t ms rest e h
    rw [hstep, h]
  · intro t ms rest j id hwf hlen hj hid hprev
    have h : update_ranks t ms = .error (.fetchNone id) :=
      updateRanksAux_fail ms t 0 j id hwf (by omega) hj hid hprev
    rw [hstep, h]

/-- C2 witness: the unseen id 2 aborts the first collect round. -/
theorem c2_witness : collect (fresh 1) [[2]] = .error (StoreError.fetchNone 2) :=
  c2_collect_amended.2.2 (fresh 1) [2] [] 0 2 (by decide) (by decide) rfl
    (by decide) (fun i hi x hx => absurd hi (by omega))

/-- C3: `update_ranks` is atomic per call: the final `conn.commit()` is
only reached when every per-rank update succeeded, so when a fault occurs
mid-loop the durable store keeps every counter of every row unchanged. -/
theorem c3_record_round_atomic (t : Table) (ms : List Nat) (e : StoreError)
    (hfail : update_ranks t ms = .error e) :
    recordRound t ms = t ∧
    ∀ id c, counterVal (recordRound t ms) id c = counterVal t id c := by
  have h : recordRound t ms = t := by
    unfold recordRound
    rw [hfail]
  exact ⟨h, fun id c => by rw [h]⟩

/-- C3 witness: recording `[7, 99]` on `tQ` applies the rank-0 update for
id 7 and then faults on the missing id 99; the durable store is
unchanged — in particular id 7's rank-0 counter is still 0. -/
theorem c3_witness :
    recordRound tQ [7, 99] = tQ ∧
    counterVal (recordRound tQ [7, 99]) 7 0 = 0 := by
  obtain ⟨h1, h2⟩ := c3_record_round_atomic tQ [7, 99] (.fetchNone 99) rfl
  exact ⟨h1, (h2 7 0).trans (by decide)⟩

/-- C4: the insert loop is idempotent: repeating it with the same id set
changes nothing; ids already present keep their row (and counters)
untouched, ids not present get a fresh all-zero row; well-formedness (in
particular key uniqueness — no duplicate rows) is preserved. -/
theorem c4_ensure_rows_idempotent :
    (∀ (t : Table) (ids : List Nat),
      ensure_rows (ensure_rows t ids) ids = ensure_rows t ids) ∧
    (∀ (t : Table) (ids : List Nat) (id : Nat), present t id = true →
      lookupRow (ensure_rows t ids) id = lookupRow t id) ∧
    (∀ (t : Table) (ids : List Nat) (id : Nat), id ∈ ids →
      present t id = false →
      lookupRow (ensure_rows t ids) id = some (List.replicate t.K 0)) ∧
    (∀ (t : Table) (ids : List Nat), WF t → WF (ensure_rows t ids)) :=
  ⟨fun t ids => ensure_rows_idem t ids,
   fun t ids id h => lookupRow_ensure_rows_of_present ids t id h,
   fun t ids id h1 h2 => lookupRow_ensure_rows_new ids t id h1 h2,
   fun t ids h => WF_ensure_rows ids t h⟩

/-- C4 witness: inserting `[4, 5]` twice into a fresh `K = 2` store equals
inserting once, and the new id 4 got an all-zero row. -/
theorem c4_witness :
    ensure_rows (ensure_rows (fresh 2) [4, 5]) [4, 5] = ensure_rows (fresh 2) [4, 5] ∧
    lookupRow (ensure_rows (fresh 2) [4, 5]) 4 = some [0, 0] := by
  refine ⟨c4_ensure_rows_idempotent.1 (fresh 2) [4, 5], ?_⟩
  have h := c4_ensure_rows_idempotent.2.2.1 (fresh 2) [4, 5] 4 (by decide) (by decide)
  rw [h]
  decide

/-- C5: starting from a fresh store, after any sequence of completed
rounds each recording exactly `K` identifiers, every rank column `r < K`
sums (over all rows) to the number of rounds. -/
theorem c5_rank_column_sums (K : Nat) (rounds : List (List Nat))
    (hlen : ∀ ms ∈ rounds, ms.length = K) :
    ∃ t', runRounds (fresh K) rounds = .ok t' ∧
      ∀ r, r < K → colSum t' r = rounds.length := by
  obtain ⟨t', hok, -, -, hcol⟩ :=
    runRounds_spec rounds (fresh K)
      ⟨fun p hp => absurd hp (List.not_mem_nil p), List.nodup_nil⟩
      (fun ms h => hlen ms h)
  refine ⟨t', hok, fun r hr => ?_⟩
  have h := hcol r hr
  simpa [colSum, fresh] using h

/-- C5 witness: the spec's two rounds `[7,3,9]`, `[3,7,9]` on a fresh
`K = 3` store give each rank column the sum 2. -/
theorem c5_witness :
    colSum (⟨3, [(7, [1, 1, 0]), (3, [1, 1, 0]), (9, [0, 0, 2])]⟩ : Table) 0 = 2 ∧
    colSum (⟨3, [(7, [1, 1, 0]), (3, [1, 1, 0]), (9, [0, 0, 2])]⟩ : Table) 1 = 2 ∧
    colSum (⟨3, [(7, [1, 1, 0]), (3, [1, 1, 0]), (9, [0, 0, 2])]⟩ : Table) 2 = 2 := by
  obtain ⟨t', hok, hcol⟩ :=
    c5_rank_column_sums 3 [[7, 3, 9], [3, 7, 9]] (by decide)
  have hrun : runRounds (fresh 3) [[7, 3, 9], [3, 7, 9]] =
      .ok ⟨3, [(7, [1, 1, 0]), (3, [1, 1, 0]), (9, [0, 0, 2])]⟩ := rfl
  rw [hrun] at hok
  obtain rfl := Except.ok.inj hok
  exact ⟨hcol 0 (by omega), hcol 1 (by omega), hcol 2 (by omega)⟩

/-- C6: the sample-size planner computes
`num_requests = max(0, 2 * (5 * K) - current)` where `current` is the sum
of the chosen rank column; it is never negative, and with `K = 109` and a
zero column sum it yields 1090. -/
theorem c6_sample_size_planner :
    (∀ (numResults : Nat) (t : Table) (rank : Nat), rank < t.K →
      num_requests numResults t rank =
        some (max 0 (2 * (5 * (numResults : Int)) - (colSum t rank : Int)))) ∧
    (∀ (numResults : Nat) (t : Table) (rank : Nat) (z : Int),
      num_requests numResults t rank = some z → 0 ≤ z) ∧
    num_requests 109 (fresh 109) 0 = some 1090 := by
  refine ⟨?_, ?_, rfl⟩
  · intro nr t rank h
    unfold num_requests num_samples get_ranks
    rw [if_pos h]
    rfl
  · intro nr t rank z h
    unfold num_requests at h
    cases hs : num_samples t rank with
    | none => rw [hs] at h; cases h
    | some cur =>
      rw [hs, Option.map_some'] at h
      rw [← Option.some.inj h]
      exact le_max_left _ _

/-- C6 witness: a store whose rank-0 column sums to 30, with `K' = 5`
results, needs `max(0, 50 - 30) = 20` more rounds. -/
theorem c6_witness : num_requests 5 (⟨1, [(1, [30])]⟩ : Table) 0 = some 20 := by
  have h := c6_sample_size_planner.1 5 ⟨1, [(1, [30])]⟩ 0 (by decide)
  rw [h]
  decide

/-- C7: the analyzer computes, per rank column, the `stats.chisquare`
statistic with a uniform expected count (the column mean), rejects
uniformity exactly when the p-value — the upper tail of the chi-square
distribution with (number of rows − 1) degrees of freedom — is below
0.05; on uniform data (4 categories, each count 25) the statistic is 0
and uniformity is not rejected (the p-value at 0 is 1). -/
theorem c7_chi_square_uniformity :
    (∀ (t : Table) (rank : Nat) (l : List Nat), get_ranks t rank = some l →
      analyzeRank t rank = some (chisqStat (l.map (fun n => (n : ℚ)))) ∧
      (rejectRank t rank ↔
        chiSquarePValue (t.rows.length - 1)
          ((chisqStat (l.map (fun n => (n : ℚ))) : ℚ) : ℝ) < 0.05)) ∧
    (∀ (n : ℕ) (c : ℚ), 0 < n → chisqStat (List.replicate n c) = 0) ∧
    (∀ df : ℕ, 0 < df → chiSquarePValue df 0 = 1) ∧
    analyzeRank uniformTable 0 = some 0 ∧
    ¬ rejectRank uniformTable 0 := by
  have huni : analyzeRank uniformTable 0 = some 0 := by
    have h1 : get_ranks uniformTable 0 = some [25, 25, 25, 25] := rfl
    unfold analyzeRank
    rw [h1, Option.map_some']
    norm_num [chisqStat]
  refine ⟨?_, fun n c h => chisqStat_replicate n c h,
    fun df h => chiSquarePValue_zero df h, huni, ?_⟩
  · intro t rank l hl
    have ha : analyzeRank t rank = some (chisqStat (l.map (fun n => (n : ℚ)))) := by
      unfold analyzeRank
      rw [hl, Option.map_some']
    refine ⟨ha, ?_⟩
    constructor
    · rintro ⟨q, hq, hlt⟩
      rw [ha] at hq
      obtain rfl := Option.some.inj hq
      exact hlt
    · intro hlt
      exact ⟨_, ha, hlt⟩
  · rintro ⟨q, hq, hlt⟩
    rw [huni] at hq
    obtain rfl := Option.some.inj hq
    have h2 : uniformTable.rows.length - 1 = 3 := rfl
    rw [h2, show ((0 : ℚ) : ℝ) = (0 : ℝ) by norm_num,
      chiSquarePValue_zero 3 (by norm_num)] at hlt
    norm_num at hlt

/-- C7 witness: the analyzer applied to the uniform table, and the
statistic of a replicated (uniform) count list. -/
theorem c7_witness :
    analyzeRank uniformTable 0 =
      some (chisqStat ([25, 25, 25, 25].map (fun n : ℕ => (n : ℚ)))) ∧
    chisqStat (List.replicate 4 (25 : ℚ)) = 0 ∧
    chiSquarePValue 3 0 = 1 :=
  ⟨(c7_chi_square_uniformity.1 uniformTable 0 [25, 25, 25, 25] rfl).1,
   c7_chi_square_uniformity.2.1 4 25 (by norm_num),
   c7_chi_square_uniformity.2.2.1 3 (by norm_num)⟩

/-- C8: when the marker-prefixed-digit pattern has no possible match in
the payload (no digit is immediately preceded by the marker text),
`scrape` returns the empty list (and, being a total function, raises
nothing); every match `findall` produces is a nonempty run of digits, and
on a payload with two marker-prefixed numbers `scrape` returns both parsed
integers in order of appearance. -/
theorem c8_scrape_no_match :
    (∀ html : List Char,
      (¬ ∃ a b, ∃ c : Char, html = a ++ c :: b ∧ c.isDigit = true ∧
        marker <:+ a) →
      scrape html = []) ∧
    (∀ (html : List Char) (mt : List Char), mt ∈ findall html →
      mt ≠ [] ∧ ∀ ch ∈ mt, ch.isDigit = true) ∧
    scrape ("abcMembership number : 12, Membership number : 345!".toList)
      = [12, 345] := by
  refine ⟨?_, ?_, by decide⟩
  · intro html h
    unfold scrape
    rw [findall_nil_of_no_match html h]
    rfl
  · intro html mt hmt
    exact scanAux_digits html [] none (by rintro ds ⟨⟩) mt hmt

/-- C8 witness: a marker-free payload scrapes to `[]` (the payload is
shorter than the marker, so no split can carry the marker as a suffix),
and the single match of a marker-bearing payload is a digit run. -/
theorem c8_witness :
    scrape ("no ids here".toList) = [] ∧
    ((['4', '2'] : List Char) ≠ [] ∧
      ∀ ch ∈ (['4', '2'] : List Char), ch.isDigit = true) := by
  constructor
  · apply c8_scrape_no_match.1
    rintro ⟨a, b, c, hsplit, -, hsuf⟩
    have h1 : marker.length ≤ a.length := hsuf.length_le
    have h2 := congrArg List.length hsplit
    rw [List.length_append, List.length_cons] at h2
    have h3 : marker.length = 20 := rfl
    have h4 : ("no ids here".toList).length = 11 := rfl
    rw [h4] at h2
    omega
  · exact c8_scrape_no_match.2.1 ("Membership number : 42x".toList) ['4', '2']
      (by decide)

/-- C9: recording the empty round is accepted (no error) and is a no-op:
the enumerate loop body never runs and the commit writes nothing new. -/
theorem c9_empty_round_noop (t : Table) :
    update_ranks t [] = .ok t ∧ recordRound t [] = t :=
  ⟨rfl, rfl⟩

/-- C10: if every identifier of the round has a row (and the round fits
the `K` rank columns), `update_ranks` succeeds — the `fetchone()` error
branch is unreachable; if the identifier at the first offending position
has no row, `update_ranks` raises that error before committing and the
durable store is unchanged — no silent skip, no implicit row creation. -/
theorem c10_update_ranks_requires_rows :
    (∀ (t : Table) (ms : List Nat), WF t →
      (∀ m ∈ ms, present t m = true) → ms.length ≤ t.K →
      ∃ t', update_ranks t ms = .ok t') ∧
    (∀ (t : Table) (ms : List Nat) (j id : Nat), WF t → ms.length ≤ t.K →
      ms[j]? = some id → present t id = false →
      (∀ i, i < j → ∀ x, ms[i]? = some x → present t x = true) →
      update_ranks t ms = .error (.fetchNone id) ∧ recordRound t ms = t) := by
  refine ⟨?_, ?_⟩
  · intro t ms hwf hpres hlen
    obtain ⟨t', hok, -, -, -, -, -⟩ := updateRanksAux_spec ms t 0 hwf hpres (by omega)
    exact ⟨t', hok⟩
  · intro t ms j id hwf hlen hj hid hprev
    have h : update_ranks t ms = .error (.fetchNone id) :=
      updateRanksAux_fail ms t 0 j id hwf (by omega) hj hid hprev
    refine ⟨h, ?_⟩
    unfold recordRound
    rw [h]

/-- C10 witness: on a `K = 1` store holding only id 5, the round `[5]`
succeeds while the round `[6]` fails with the missing-row error. -/
theorem c10_witness :
    (update_ranks ⟨1, [(5, [0])]⟩ [5]).isOk = true ∧
    update_ranks ⟨1, [(5, [0])]⟩ [6] = .error (StoreError.fetchNone 6) := by
  constructor
  · obtain ⟨t', h⟩ := c10_update_ranks_requires_rows.1 ⟨1, [(5, [0])]⟩ [5]
      (by decide) (by decide) (by decide)
    rw [h]
    rfl
  · exact (c10_update_ranks_requires_rows.2 ⟨1, [(5, [0])]⟩ [6] 0 6 (by decide)
      (by decide) rfl (by decide) (fun i hi x hx => absurd hi (by omega))).1

end Ottiaq
